import Mathlib

/-!
Shallow embedding of the auction web-scraper (src/webscrapper.py) and proofs
about its field-extraction, record-building and post-processing logic.

HTML documents are modelled as forests of element/text nodes; the regular
expressions used by the source are translated into executable character-list
functions that reproduce the leftmost-greedy backtracking behaviour of the
Python re module on the concrete patterns appearing in the code.
-/

namespace Scraper

/-- Python whitespace class (ASCII part): space, tab, newline, carriage
return, vertical tab, form feed. -/
def isPySpace (c : Char) : Bool :=
  c == ' ' || c == '\t' || c == '\n' || c == '\r' || c == '\x0b' || c == '\x0c'

/-- Python word-character class (ASCII part): letters, digits, underscore. -/
def isWordChar (c : Char) : Bool :=
  c.isAlpha || c.isDigit || c == '_'

/-- One pass of the substitution re.sub of one-or-more whitespace by a single
space: every maximal run of whitespace characters becomes one space.  The
boolean flag records whether the previously emitted character closed a
whitespace run. -/
def collapseGo : Bool → List Char → List Char
  | _, [] => []
  | prevSpace, c :: cs =>
    if isPySpace c then
      if prevSpace then collapseGo true cs
      else ' ' :: collapseGo true cs
    else c :: collapseGo false cs

/-- Drop trailing whitespace (the right half of Python str.strip). -/
def dropTrailWs : List Char → List Char
  | [] => []
  | c :: cs =>
    match dropTrailWs cs with
    | [] => if isPySpace c then [] else [c]
    | x :: xs => c :: x :: xs

/-- Python str.strip on a character list: remove leading and trailing
whitespace. -/
def stripL (l : List Char) : List Char :=
  dropTrailWs (l.dropWhile isPySpace)

/-- Python str.strip. -/
def pyStrip (s : String) : String :=
  ⟨stripL s.data⟩

/-- clean_text from the source: collapse whitespace runs to single spaces,
then strip.  The source also maps None to ""; absent values are modelled
as "". -/
def cleanText (s : String) : String :=
  ⟨stripL (collapseGo false s.data)⟩

/-- No two adjacent characters are both whitespace. -/
def noDoubleWs : List Char → Bool
  | [] => true
  | [_] => true
  | a :: b :: rest => !(isPySpace a && isPySpace b) && noDoubleWs (b :: rest)

/-- A string is clean when it has no leading or trailing whitespace and no
internal run of more than one whitespace character. -/
def isCleanStr (s : String) : Bool :=
  (match s.data.head? with | none => true | some c => !isPySpace c) &&
  (match s.data.getLast? with | none => true | some c => !isPySpace c) &&
  noDoubleWs s.data

/-- Every whitespace character of the list is a plain space; the image of
clean_text consists of such lists. -/
def allWsSingleSpace (l : List Char) : Bool :=
  l.all (fun c => !isPySpace c || c == ' ')

theorem noDoubleWs_tail {a : Char} {l : List Char}
    (h : noDoubleWs (a :: l) = true) : noDoubleWs l = true := by
  cases l with
  | nil => rfl
  | cons b t => simp [noDoubleWs] at h; exact h.2

theorem collapseGo_head_true (l : List Char) :
    ∀ c, (collapseGo true l).head? = some c → isPySpace c = false := by
  induction l with
  | nil => intro c h; simp [collapseGo] at h
  | cons a t ih =>
    intro c h
    by_cases ha : isPySpace a = true
    · simp [collapseGo, ha] at h; exact ih c h
    · simp at ha
      simp [collapseGo, ha] at h
      exact h ▸ ha

theorem noDoubleWs_collapseGo (l : List Char) (b : Bool) :
    noDoubleWs (collapseGo b l) = true := by
  induction l generalizing b with
  | nil => simp [collapseGo, noDoubleWs]
  | cons a t ih =>
    by_cases ha : isPySpace a = true
    · by_cases hb : b = true
      · simpa [collapseGo, ha, hb] using ih true
      · simp at hb
        simp only [collapseGo, ha, hb, if_true, if_false]
        cases hres : collapseGo true t with
        | nil => simp [noDoubleWs]
        | cons x xs =>
          have hx : isPySpace x = false :=
            collapseGo_head_true t x (by simp [hres])
          have htail := ih true
          rw [hres] at htail
          simp [noDoubleWs, hx, htail]
    · simp at ha
      simp only [collapseGo, ha, Bool.false_eq_true, if_false]
      cases hres : collapseGo false t with
      | nil => simp [noDoubleWs]
      | cons x xs =>
        have htail := ih false
        rw [hres] at htail
        simp [noDoubleWs, ha, htail]

theorem allWs_collapseGo (l : List Char) (b : Bool) :
    allWsSingleSpace (collapseGo b l) = true := by
  induction l generalizing b with
  | nil => simp [collapseGo, allWsSingleSpace]
  | cons a t ih =>
    by_cases ha : isPySpace a = true
    · by_cases hb : b = true
      · simpa [collapseGo, ha, hb] using ih true
      · simp at hb
        have h := ih true
        simp only [collapseGo, ha, hb, if_true, if_false]
        simp [allWsSingleSpace] at h ⊢
        intro x hx
        exact h x hx
    · simp at ha
      have h := ih false
      simp only [collapseGo, ha, Bool.false_eq_true, if_false]
      simp [allWsSingleSpace] at h ⊢
      exact ⟨Or.inl ha, fun x hx => h x hx⟩

theorem dropTrailWs_append (l : List Char) :
    ∃ t, dropTrailWs l ++ t = l := by
  induction l with
  | nil => exact ⟨[], rfl⟩
  | cons c cs ih =>
    obtain ⟨t, ht⟩ := ih
    cases hres : dropTrailWs cs with
    | nil =>
      by_cases hc : isPySpace c = true
      · exact ⟨c :: cs, by simp [dropTrailWs, hres, hc]⟩
      · refine ⟨cs, ?_⟩
        simp at hc
        simp [dropTrailWs, hres, hc]
    | cons x xs =>
      refine ⟨t, ?_⟩
      rw [hres] at ht
      simp [dropTrailWs, hres]
      simpa using ht

theorem getLast_dropTrailWs (l : List Char) :
    ∀ c, (dropTrailWs l).getLast? = some c → isPySpace c = false := by
  induction l with
  | nil => intro c h; simp [dropTrailWs] at h
  | cons a t ih =>
    intro c h
    cases hres : dropTrailWs t with
    | nil =>
      rw [dropTrailWs, hres] at h
      by_cases hsp : isPySpace a = true
      · simp [hsp] at h
      · simp at hsp
        simp [hsp] at h
        exact h ▸ hsp
    | cons x xs =>
      rw [dropTrailWs, hres] at h
      simp only [List.getLast?_cons_cons] at h
      exact ih c (by rw [hres]; exact h)

theorem head_dropTrailWs (l : List Char) :
    ∀ c, (dropTrailWs l).head? = some c → l.head? = some c := by
  induction l with
  | nil => intro c h; simp [dropTrailWs] at h
  | cons a t _ =>
    intro c h
    cases hres : dropTrailWs t with
    | nil =>
      rw [dropTrailWs, hres] at h
      by_cases hsp : isPySpace a = true
      · simp [hsp] at h
      · simp at hsp
        simp [hsp] at h
        simp [h]
    | cons x xs =>
      rw [dropTrailWs, hres] at h
      simp at h ⊢
      exact h

theorem noDoubleWs_of_append_left {a b : List Char}
    (h : noDoubleWs (a ++ b) = true) : noDoubleWs a = true := by
  induction a with
  | nil => rfl
  | cons x xs ih =>
    cases xs with
    | nil => rfl
    | cons y ys =>
      simp only [List.cons_append, noDoubleWs, Bool.and_eq_true] at h ⊢
      exact ⟨h.1, ih (by simpa [noDoubleWs] using h.2)⟩

theorem noDoubleWs_dropWhile (l : List Char) (p : Char → Bool)
    (h : noDoubleWs l = true) : noDoubleWs (l.dropWhile p) = true := by
  induction l with
  | nil => simpa using h
  | cons c cs ih =>
    by_cases hc : p c = true
    · simp [List.dropWhile, hc]
      exact ih (noDoubleWs_tail h)
    · simp at hc
      simpa [List.dropWhile, hc] using h

theorem mem_dropWhile {l : List Char} {p : Char → Bool} {x : Char}
    (h : x ∈ l.dropWhile p) : x ∈ l := by
  induction l with
  | nil => simp at h
  | cons c cs ih =>
    by_cases hc : p c = true
    · simp [List.dropWhile, hc] at h
      exact List.mem_cons_of_mem c (ih h)
    · simp at hc
      simpa [List.dropWhile, hc] using h

theorem allWs_of_append_left {a b : List Char}
    (h : allWsSingleSpace (a ++ b) = true) : allWsSingleSpace a = true := by
  simp [allWsSingleSpace] at h ⊢
  exact h.1

theorem allWs_dropWhile (l : List Char) (p : Char → Bool)
    (h : allWsSingleSpace l = true) : allWsSingleSpace (l.dropWhile p) = true := by
  simp [allWsSingleSpace] at h ⊢
  intro x hx
  exact h x (mem_dropWhile hx)

theorem head_dropWhile_not (l : List Char) (p : Char → Bool) :
    ∀ c, (l.dropWhile p).head? = some c → p c = false := by
  induction l with
  | nil => intro c h; simp [List.dropWhile] at h
  | cons a t ih =>
    intro c h
    by_cases ha : p a = true
    · simp [List.dropWhile, ha] at h; exact ih c h
    · simp at ha
      simp [List.dropWhile, ha] at h
      exact h ▸ ha

/-- The output of clean_text is clean: no leading or trailing whitespace and
no internal double whitespace. -/
theorem isCleanStr_cleanText (s : String) : isCleanStr (cleanText s) = true := by
  unfold cleanText isCleanStr stripL
  set m := collapseGo false s.data with hm
  have hnd : noDoubleWs m = true := noDoubleWs_collapseGo s.data false
  have hdw : noDoubleWs (m.dropWhile isPySpace) = true :=
    noDoubleWs_dropWhile m isPySpace hnd
  obtain ⟨t, ht⟩ := dropTrailWs_append (m.dropWhile isPySpace)
  simp only [Bool.and_eq_true]
  refine ⟨⟨?_, ?_⟩, ?_⟩
  · cases hh : (dropTrailWs (m.dropWhile isPySpace)).head? with
    | none => simp
    | some c =>
      have hc := head_dropTrailWs _ c hh
      have := head_dropWhile_not m isPySpace c hc
      simp [this]
  · cases hh : (dropTrailWs (m.dropWhile isPySpace)).getLast? with
    | none => simp
    | some c =>
      have := getLast_dropTrailWs (m.dropWhile isPySpace) c hh
      simp [this]
  · exact noDoubleWs_of_append_left (ht ▸ hdw)

theorem allWs_cleanText (s : String) :
    allWsSingleSpace (cleanText s).data = true := by
  unfold cleanText stripL
  obtain ⟨t, ht⟩ := dropTrailWs_append ((collapseGo false s.data).dropWhile isPySpace)
  exact allWs_of_append_left
    (ht ▸ allWs_dropWhile _ isPySpace (allWs_collapseGo s.data false))

theorem collapseGo_id (l : List Char) (hnd : noDoubleWs l = true)
    (hws : allWsSingleSpace l = true) :
    collapseGo false l = l ∧
      ((∀ c, l.head? = some c → isPySpace c = false) → collapseGo true l = l) := by
  induction l with
  | nil => exact ⟨rfl, fun _ => rfl⟩
  | cons a t ih =>
    have hndT : noDoubleWs t = true := noDoubleWs_tail hnd
    have hwsT : allWsSingleSpace t = true := by
      simp [allWsSingleSpace] at hws ⊢
      exact fun x hx => hws.2 x hx
    obtain ⟨ih1, ih2⟩ := ih hndT hwsT
    by_cases ha : isPySpace a = true
    · have haSp : a = ' ' := by
        simp [allWsSingleSpace] at hws
        rcases hws.1 with h | h
        · rw [ha] at h; cases h
        · exact h
      have hheadT : ∀ c, t.head? = some c → isPySpace c = false := by
        intro c hc
        cases t with
        | nil => simp at hc
        | cons b u =>
          simp at hc
          subst hc
          simp [noDoubleWs, ha] at hnd
          exact hnd.1
      constructor
      · rw [show collapseGo false (a :: t) = ' ' :: collapseGo true t by
          simp [collapseGo, ha]]
        rw [ih2 hheadT, haSp]
      · intro hhead
        have := hhead a rfl
        rw [ha] at this; cases this
    · simp at ha
      exact ⟨by simp [collapseGo, ha, ih1], fun _ => by simp [collapseGo, ha, ih1]⟩

theorem dropWhile_id_of_head (l : List Char)
    (h : ∀ c, l.head? = some c → isPySpace c = false) :
    l.dropWhile isPySpace = l := by
  cases l with
  | nil => rfl
  | cons a t => simp [List.dropWhile, h a rfl]

theorem dropTrailWs_id_of_getLast (l : List Char)
    (h : ∀ c, l.getLast? = some c → isPySpace c = false) :
    dropTrailWs l = l := by
  induction l with
  | nil => rfl
  | cons a t ih =>
    cases t with
    | nil =>
      have := h a rfl
      simp [dropTrailWs, this]
    | cons x xs =>
      have ht : dropTrailWs (x :: xs) = x :: xs :=
        ih (by intro c hc; exact h c (by simpa [List.getLast?_cons_cons] using hc))
      rw [dropTrailWs, ht]

/-- clean_text is the identity on strings that are already clean with only
plain inner spaces. -/
theorem cleanText_of_clean (s : String) (hc : isCleanStr s = true)
    (hw : allWsSingleSpace s.data = true) : cleanText s = s := by
  unfold isCleanStr at hc
  simp only [Bool.and_eq_true] at hc
  obtain ⟨⟨hhead, hlast⟩, hnd⟩ := hc
  have hh : ∀ c, s.data.head? = some c → isPySpace c = false := by
    intro c h
    rw [h] at hhead
    simpa using hhead
  have hl : ∀ c, s.data.getLast? = some c → isPySpace c = false := by
    intro c h
    rw [h] at hlast
    simpa using hlast
  unfold cleanText stripL
  rw [(collapseGo_id s.data hnd hw).1, dropWhile_id_of_head _ hh,
    dropTrailWs_id_of_getLast _ hl]

/-- clean_text is idempotent. -/
theorem cleanText_idem (s : String) : cleanText (cleanText s) = cleanText s :=
  cleanText_of_clean _ (isCleanStr_cleanText s) (allWs_cleanText s)

theorem mem_of_getLast?_eq {l : List Char} {c : Char}
    (h : l.getLast? = some c) : c ∈ l := by
  induction l with
  | nil => simp at h
  | cons a t ih =>
    cases t with
    | nil => simp at h; simp [h]
    | cons x xs =>
      rw [List.getLast?_cons_cons] at h
      exact List.mem_cons_of_mem a (ih h)

theorem noDoubleWs_of_no_ws (l : List Char)
    (h : ∀ c ∈ l, isPySpace c = false) : noDoubleWs l = true := by
  induction l with
  | nil => rfl
  | cons a t ih =>
    cases t with
    | nil => rfl
    | cons b u =>
      simp only [noDoubleWs, Bool.and_eq_true]
      refine ⟨?_, ih (fun c hc => h c (List.mem_cons_of_mem a hc))⟩
      simp [h a (by simp)]

/-- clean_text is the identity on strings containing no whitespace at all. -/
theorem cleanText_of_no_ws (s : String)
    (h : ∀ c ∈ s.data, isPySpace c = false) : cleanText s = s := by
  apply cleanText_of_clean
  · unfold isCleanStr
    simp only [Bool.and_eq_true]
    refine ⟨⟨?_, ?_⟩, noDoubleWs_of_no_ws s.data h⟩
    · cases hh : s.data.head? with
      | none => simp
      | some c =>
        cases hd : s.data with
        | nil => rw [hd] at hh; simp at hh
        | cons a t =>
          rw [hd] at hh
          simp at hh
          subst hh
          simp [h a (by rw [hd]; simp)]
    · cases hh : s.data.getLast? with
      | none => simp
      | some c =>
        have : c ∈ s.data := mem_of_getLast?_eq hh
        simp [h c this]
  · simp [allWsSingleSpace]
    intro c hc
    exact Or.inl (h c hc)

/-! ## HTML document model

A parsed document is a forest of nodes: element nodes carry a tag name and
children, text nodes carry their string content (BeautifulSoup
NavigableStrings).  Comments, attributes and other markup are irrelevant to
the extraction logic and are not modelled. -/

inductive Node where
  | text (s : String)
  | elem (tag : String) (children : List Node)

/-- Option alternative with explicit matching (Python "return on first
truthy candidate" chains). -/
def oor (a b : Option String) : Option String :=
  match a with
  | some v => some v
  | none => b

mutual
/-- Mutual structural induction for nodes. -/
theorem nodeInd (motive1 : Node → Prop) (motive2 : List Node → Prop)
    (htext : ∀ s, motive1 (.text s))
    (helem : ∀ t cs, motive2 cs → motive1 (.elem t cs))
    (hnil : motive2 [])
    (hcons : ∀ n l, motive1 n → motive2 l → motive2 (n :: l)) :
    ∀ n, motive1 n
  | .text s => htext s
  | .elem t cs =>
    helem t cs (forestInd motive1 motive2 htext helem hnil hcons cs)
/-- Mutual structural induction for forests. -/
theorem forestInd (motive1 : Node → Prop) (motive2 : List Node → Prop)
    (htext : ∀ s, motive1 (.text s))
    (helem : ∀ t cs, motive2 cs → motive1 (.elem t cs))
    (hnil : motive2 [])
    (hcons : ∀ n l, motive1 n → motive2 l → motive2 (n :: l)) :
    ∀ l, motive2 l
  | [] => hnil
  | n :: l =>
    hcons n l (nodeInd motive1 motive2 htext helem hnil hcons n)
      (forestInd motive1 motive2 htext helem hnil hcons l)
end

mutual
/-- All text fragments below a node, in document order. -/
def fragsN : Node → List String
  | .text s => [s]
  | .elem _ cs => fragsL cs
/-- All text fragments of a forest, in document order. -/
def fragsL : List Node → List String
  | [] => []
  | n :: l => fragsN n ++ fragsL l
end

/-- BeautifulSoup get_text(strip=True) with the default empty separator:
strip each fragment, drop empties, concatenate. -/
def getTextStrip (n : Node) : String :=
  String.join (((fragsN n).map pyStrip).filter (fun s => s != ""))

/-- BeautifulSoup get_text(" ", strip=True): strip each fragment, drop
empties, join with single spaces. -/
def getTextSp (n : Node) : String :=
  String.intercalate " " (((fragsN n).map pyStrip).filter (fun s => s != ""))

/-- BeautifulSoup get_text() with no arguments: raw concatenation. -/
def rawTextN (n : Node) : String :=
  String.join (fragsN n)

/-! ## The anchored label pattern

The source compiles, for a list of labels, the ignore-case pattern
anchored-start, optional whitespace, one of the escaped labels, optional
whitespace, optional colon, optional whitespace, anchored-end, and uses it
both with match (strategy 1) and as a string filter (strategy 2).  Labels
are escaped, so they match literally; the embedding below reproduces the
backtracking acceptance condition of that pattern. -/

/-- Case-insensitive literal prefix match; returns the remainder on success. -/
def ciStarts : List Char → List Char → Option (List Char)
  | [], l => some l
  | _ :: _, [] => none
  | p :: ps, c :: cs => if p.toLower == c.toLower then ciStarts ps cs else none

/-- Acceptance of the trailer: optional whitespace, optional colon, optional
whitespace, end of string. -/
def lpTail (l : List Char) : Bool :=
  match l.dropWhile isPySpace with
  | [] => true
  | ':' :: rest => rest.all isPySpace
  | _ => false

/-- Does some label match literally (case-insensitively) at this position,
followed by an accepted trailer? -/
def lpCheckAt (labels : List String) (l : List Char) : Bool :=
  labels.any (fun lab =>
    match ciStarts lab.data l with
    | some rest => lpTail rest
    | none => false)

/-- Full acceptance of the anchored label pattern: the greedy leading
whitespace group backtracks, so a label may start after any prefix of the
leading whitespace run. -/
def lpm (labels : List String) : List Char → Bool
  | [] => lpCheckAt labels []
  | c :: cs => lpCheckAt labels (c :: cs) || (isPySpace c && lpm labels cs)

/-- label_pattern.match / search on a string (the pattern is anchored on
both sides, so match and search coincide). -/
def labelMatches (labels : List String) (s : String) : Bool :=
  lpm labels s.data

/-! ## Strategy 1: dt/dd pairs -/

/-- find_next_sibling("dd"): first following sibling element tagged dd. -/
def firstDD : List Node → Option Node
  | [] => none
  | .text _ :: rest => firstDD rest
  | .elem t cs :: rest => if t = "dd" then some (.elem t cs) else firstDD rest

mutual
/-- Strategy 1 scan below one node. -/
def st1N (labels : List String) : Node → Option String
  | .text _ => none
  | .elem _ cs => st1L labels cs
/-- Strategy 1 scan of a forest: for each dt element in document order whose
nonempty stripped text matches the label pattern, return the cleaned
spaced text of its next dd sibling, if it has one; otherwise keep
scanning. -/
def st1L (labels : List String) : List Node → Option String
  | [] => none
  | .text _ :: rest => st1L labels rest
  | .elem t cs :: rest =>
    oor
      (if t = "dt" && getTextStrip (.elem t cs) != "" &&
          labelMatches labels (getTextStrip (.elem t cs)) then
        (firstDD rest).map (fun dd => cleanText (getTextSp dd))
      else none)
      (oor (st1N labels (.elem t cs)) (st1L labels rest))
end

/-- Strategy 1 entry point on a document forest. -/
def strat1 (labels : List String) (doc : List Node) : Option String :=
  st1L labels doc

/-! ## Strategy 2: label text node, then adjacent sibling or next element

find_all(string=label_pattern) walks every text node in document order.
For a matching text node, the source reads the candidate value from the
text node's parent: the parent's next sibling element if its cleaned text
is nonempty, else the first element after the parent in document order
(which starts with the parent's own first element child).  Because the
candidate depends only on the parent, it is computed once per element from
its children, its following siblings, and the first element beyond its
nesting level. -/

/-- First element (skipping text nodes) of a forest. -/
def firstTag : List Node → Option Node
  | [] => none
  | .text _ :: rest => firstTag rest
  | .elem t cs :: _ => some (.elem t cs)

/-- First element of the forest, falling back to a continuation element. -/
def firstTagO (l : List Node) (k : Option Node) : Option Node :=
  match firstTag l with
  | some x => some x
  | none => k

/-- Cleaned spaced text of a node, when nonempty. -/
def nonEmptyClean (n : Node) : Option String :=
  let v := cleanText (getTextSp n)
  if v != "" then some v else none

/-- Candidate value for matching text children of an element with children
cs, following siblings sibs, and first element k beyond its level: next
sibling element first, then the next element in document order. -/
def st2cand (cs sibs : List Node) (k : Option Node) : Option String :=
  let nxtPart : Option String :=
    match firstTagO cs (firstTagO sibs k) with
    | some nx => nonEmptyClean nx
    | none => none
  match firstTag sibs with
  | some sb => oor (nonEmptyClean sb) nxtPart
  | none => nxtPart

mutual
/-- Strategy 2 scan inside one node (an element), given its following
siblings and the first element beyond its level. -/
def st2N (labels : List String) : Node → List Node → Option Node → Option String
  | .text _, _, _ => none
  | .elem _ cs, sibs, k =>
    st2L labels (st2cand cs sibs k) cs (firstTagO sibs k)
/-- Strategy 2 scan of a sibling list whose parent has candidate value cand;
k is the first element beyond this level.  A matching text node returns
the parent's candidate when there is one, otherwise the loop continues
with later matching text nodes. -/
def st2L (labels : List String) (cand : Option String) :
    List Node → Option Node → Option String
  | [], _ => none
  | .text s :: rest, k =>
    if labelMatches labels s && cand.isSome then cand
    else st2L labels cand rest k
  | .elem t cs :: rest, k =>
    oor (st2N labels (.elem t cs) rest k) (st2L labels cand rest k)
end

/-- Strategy 2 entry point: at top level the parent is the soup object,
which has no siblings; its next element is the first element of the
document. -/
def strat2 (labels : List String) (doc : List Node) : Option String :=
  st2L labels (st2cand doc [] none) doc none

/-! ## Strategy 3: label inside a block element, split on the label -/

/-- Block-like tags scanned by strategy 3. -/
def blockTag (t : String) : Bool :=
  t == "div" || t == "span" || t == "li" || t == "p"

/-- Case-insensitive literal prefix match that also reports the last
consumed text character (for the trailing word boundary). -/
def ciStartsR : List Char → Option Char → List Char → Option (Option Char × List Char)
  | [], prev, l => some (prev, l)
  | _ :: _, _, [] => none
  | p :: ps, _, c :: cs =>
    if p.toLower == c.toLower then ciStartsR ps (some c) cs else none

/-- Word boundary between two adjacent positions. -/
def bnd (a b : Option Char) : Bool :=
  (match a with | some c => isWordChar c | none => false) !=
    (match b with | some c => isWordChar c | none => false)

/-- Does the word-bounded label match at exactly this position? -/
def swAt (lab : List Char) (prev : Option Char) (l : List Char) : Bool :=
  bnd prev l.head? &&
    (match ciStartsR lab prev l with
     | some (last, rest) => bnd last rest.head?
     | none => false)

/-- re.search of backslash-b label backslash-b, ignore case: try every
position left to right. -/
def swSearch (lab : List Char) (prev : Option Char) : List Char → Bool
  | [] => swAt lab prev []
  | c :: cs => swAt lab prev (c :: cs) || swSearch lab (some c) cs

/-- Remainder after the first case-insensitive occurrence of lab. -/
def ciFind (lab : List Char) : List Char → Option (List Char)
  | [] => match ciStarts lab [] with
          | some rest => some rest
          | none => none
  | c :: cs => match ciStarts lab (c :: cs) with
               | some rest => some rest
               | none => ciFind lab cs

/-- Greedy consumption of the split pattern's trailer: whitespace, optional
colon, whitespace. -/
def eatTail (l : List Char) : List Char :=
  match l.dropWhile isPySpace with
  | ':' :: rest => rest.dropWhile isPySpace
  | l1 => l1

/-- Characters up to the start of the next case-insensitive occurrence of
lab (the second field of re.split). -/
def upToNext (lab : List Char) : List Char → List Char
  | [] => []
  | c :: cs => if (ciStarts lab (c :: cs)).isSome then [] else c :: upToNext lab cs

/-- Strategy 3 inner loop over the labels for one block element's cleaned
text: word-bounded search, then split on the label and return the cleaned
second piece when nonempty. -/
def st3TryLabels (txt : String) : List String → Option String
  | [] => none
  | lab :: more =>
    if swSearch lab.data none txt.data then
      match ciFind lab.data txt.data with
      | some rest =>
        let a1 := cleanText ⟨upToNext lab.data (eatTail rest)⟩
        if a1 != "" then some a1 else st3TryLabels txt more
      | none => st3TryLabels txt more
    else st3TryLabels txt more

mutual
/-- Strategy 3 scan below one node. -/
def st3N (labels : List String) : Node → Option String
  | .text _ => none
  | .elem t cs =>
    oor
      (if blockTag t then
        st3TryLabels (cleanText (getTextSp (.elem t cs))) labels
      else none)
      (st3L labels cs)
/-- Strategy 3 scan of a forest in document order. -/
def st3L (labels : List String) : List Node → Option String
  | [] => none
  | n :: rest => oor (st3N labels n) (st3L labels rest)
end

/-- Strategy 3 entry point. -/
def strat3 (labels : List String) (doc : List Node) : Option String :=
  st3L labels doc

/-- find_labeled_value: the three strategies in priority order, empty string
when all fail. -/
def find_labeled_value (doc : List Node) (labels : List String) : String :=
  match oor (strat1 labels doc) (oor (strat2 labels doc) (strat3 labels doc)) with
  | some v => v
  | none => ""

/-! ## Record builder (parse_vehicle) -/

/-- re.search of a run of five or more digits: at the first position where
at least five consecutive digits start, the greedy quantifier takes the
whole digit run. -/
def firstDigitRun : List Char → Option (List Char)
  | [] => none
  | c :: cs =>
    let run := (c :: cs).takeWhile Char.isDigit
    if run.length ≥ 5 then some run else firstDigitRun cs

/-- Characters allowed in the model group of the title pattern: ASCII
letters, digits, hyphen, space. -/
def inModelCls (c : Char) : Bool :=
  c.isAlpha || c.isDigit || c == '-' || c == ' '

/-- The final group of the title pattern: one-or-more whitespace then at
least two model-class characters.  The greedy whitespace quantifier
backtracks from k whitespace characters down to one; a space given back by
it can be re-consumed by the model class. -/
def modelTryK (l : List Char) : Nat → Option (List Char)
  | 0 => none
  | k + 1 =>
    let run := (l.drop (k + 1)).takeWhile inModelCls
    if run.length ≥ 2 then some run else modelTryK l k

/-- Match whitespace-plus-model at the start of l. -/
def modelTry (l : List Char) : Option (List Char) :=
  modelTryK l (l.takeWhile isPySpace).length

/-- Attempt the combined title pattern at one position: word boundary, a
four-digit year starting 19 or 20, word boundary, whitespace, an alphabetic
make token, whitespace, a model remainder of length at least two.  Returns
(year, make, raw model group). -/
def titleTryAt (prev : Option Char) (l : List Char) :
    Option (String × String × String) :=
  match l with
  | d1 :: d2 :: d3 :: d4 :: rest =>
    if (!(match prev with | some c => isWordChar c | none => false)) &&
        (((d1 == '1') && (d2 == '9')) || ((d1 == '2') && (d2 == '0'))) &&
        d3.isDigit && d4.isDigit &&
        (!(match rest.head? with | some c => isWordChar c | none => false)) then
      let ws1 := rest.takeWhile isPySpace
      if ws1.length ≥ 1 then
        let r1 := rest.drop ws1.length
        let mk := r1.takeWhile Char.isAlpha
        if mk.length ≥ 1 then
          match modelTry (r1.drop mk.length) with
          | some md => some (⟨[d1, d2, d3, d4]⟩, ⟨mk⟩, ⟨md⟩)
          | none => none
        else none
      else none
    else none
  | _ => none

/-- re.search of the title pattern: leftmost position wins.  The year
component of the returned triple equals group(0).split()[0] of the match,
since the match starts with the four year digits followed by whitespace. -/
def titleScan (prev : Option Char) : List Char → Option (String × String × String)
  | [] => none
  | c :: cs =>
    match titleTryAt prev (c :: cs) with
    | some r => some r
    | none => titleScan (some c) cs

/-- Search the combined year-make-model pattern in a title string. -/
def titleSearch (s : String) : Option (String × String × String) :=
  titleScan none s.data

/-- Zero or more comma-plus-three-digit groups, greedily. -/
def commaGroups : List Char → List Char × List Char
  | ',' :: a :: b :: c :: rest =>
    if a.isDigit && b.isDigit && c.isDigit then
      let (g, r) := commaGroups rest
      (',' :: a :: b :: c :: g, r)
    else ([], ',' :: a :: b :: c :: rest)
  | l => ([], l)

/-- Optional decimal point with exactly two digits. -/
def decimalOpt : List Char → List Char
  | '.' :: a :: b :: _ => if a.isDigit && b.isDigit then ['.', a, b] else []
  | _ => []

/-- The digit part of the money pattern: one to three digits (greedy, so
exactly min 3 available), then comma groups, then the optional cents. -/
def moneyCore (l : List Char) : Option (List Char) :=
  let run := l.takeWhile Char.isDigit
  if run.length == 0 then none
  else
    let n := min 3 run.length
    let (g, r) := commaGroups (l.drop n)
    some (l.take n ++ g ++ decimalOpt r)

/-- Optional single whitespace before the digits; if taking the whitespace
leaves no digit, the optional quantifier backtracks to the empty match. -/
def moneyAfterWs (pre : List Char) (l : List Char) : Option (List Char) :=
  match l with
  | c :: rest =>
    if isPySpace c then
      match moneyCore rest with
      | some m => some (pre ++ c :: m)
      | none => (moneyCore l).map (fun m => pre ++ m)
    else (moneyCore l).map (fun m => pre ++ m)
  | [] => none

/-- The money pattern attempted at one position: optional dollar sign (if
present and the rest fails, the pattern retries without consuming it, which
then also fails on the dollar sign itself), optional single whitespace,
digits. -/
def moneyTryAt (l : List Char) : Option (List Char) :=
  match l with
  | '$' :: rest =>
    match moneyAfterWs ['$'] rest with
    | some m => some m
    | none => moneyAfterWs [] l
  | _ => moneyAfterWs [] l

/-- re.search of the money pattern: leftmost match. -/
def moneyScan : List Char → Option (List Char)
  | [] => none
  | c :: cs =>
    match moneyTryAt (c :: cs) with
    | some m => some m
    | none => moneyScan cs

/-- money.search on a string. -/
def moneySearch (s : String) : Option String :=
  (moneyScan s.data).map (fun l => ⟨l⟩)

/-- The money-normalization step of parse_vehicle: replace the extracted
text by the first money match when one exists, else keep it as is. -/
def normalizeMoney (s : String) : String :=
  match moneySearch s with
  | some m => m
  | none => s

mutual
/-- soup.find for a tag name, on one node. -/
def findTagN (t : String) : Node → Option Node
  | .text _ => none
  | .elem tg cs => if tg = t then some (.elem tg cs) else findTagL t cs
/-- soup.find for a tag name, on a forest: first matching element in
document order. -/
def findTagL (t : String) : List Node → Option Node
  | [] => none
  | n :: rest =>
    match findTagN t n with
    | some r => some r
    | none => findTagL t rest
end

/-- One extracted vehicle record: the fixed eight string fields. -/
structure VehicleRecord where
  stockNo : String
  make : String
  model : String
  year : String
  auctionDate : String
  url : String
  acvCost : String
  repairCost : String
deriving DecidableEq

def stockLabels : List String :=
  ["Stock No", "Stock#", "Stock Number", "Lot #", "Lot Number"]

def dateLabels : List String :=
  ["Auction Date", "Sale Date", "Auction Time", "Sale Time"]

def acvLabels : List String := ["ACV", "Actual Cash Value"]

def repairLabels : List String :=
  ["Repair Cost", "Estimated Repair Cost", "Est. Repair"]

/-- The cleaned text of the document's title element, empty when there is
none (soup.title truthiness). -/
def titleTextOf (doc : List Node) : String :=
  match findTagL "title" doc with
  | some tNode => cleanText (rawTextN tNode)
  | none => ""

/-- The year, make and model values of parse_vehicle: labelled extraction
first, then the combined title pattern fills only the still-empty fields.
The year filled from the title equals group(0).split()[0] of the title
match, which is the four year digits since the match starts with them
followed by mandatory whitespace. -/
def ymmOf (doc : List Node) : String × String × String :=
  if ¬(find_labeled_value doc ["Year"] ≠ "" ∧ find_labeled_value doc ["Make"] ≠ "" ∧
        find_labeled_value doc ["Model"] ≠ "") ∧ titleTextOf doc ≠ "" then
    match titleSearch (titleTextOf doc) with
    | some (y, mk, md) =>
      (if find_labeled_value doc ["Year"] ≠ "" then find_labeled_value doc ["Year"] else y,
       if find_labeled_value doc ["Make"] = "" then mk else find_labeled_value doc ["Make"],
       if find_labeled_value doc ["Model"] = "" then pyStrip md
       else find_labeled_value doc ["Model"])
    | none =>
      (find_labeled_value doc ["Year"], find_labeled_value doc ["Make"],
       find_labeled_value doc ["Model"])
  else
    (find_labeled_value doc ["Year"], find_labeled_value doc ["Make"],
     find_labeled_value doc ["Model"])

/-- parse_vehicle: build one record from a parsed document and its URL. -/
def parse_vehicle (doc : List Node) (url : String) : VehicleRecord :=
  let stock0 : String :=
    match firstDigitRun url.data with
    | some ds => ⟨ds⟩
    | none => ""
  let page_stock := find_labeled_value doc stockLabels
  let stock_no := if page_stock ≠ "" then page_stock else stock0
  let ymm := ymmOf doc
  let auction_date := find_labeled_value doc dateLabels
  let acv := normalizeMoney (find_labeled_value doc acvLabels)
  let repair := normalizeMoney (find_labeled_value doc repairLabels)
  { stockNo := cleanText stock_no
    make := cleanText ymm.2.1
    model := cleanText ymm.2.2
    year := cleanText ymm.1
    auctionDate := cleanText auction_date
    url := url
    acvCost := cleanText acv
    repairCost := cleanText repair }

/-! ## Post-processing

The CSV written from the records is re-read as a uniform string table,
column order is enforced, rows with duplicate stock numbers are dropped
keeping the first, and the table is sorted ascending by auction date then
stock number using plain string comparison.  The CSV round trip preserves
the string fields, so it is modelled as the identity on the record list;
pandas multi-column sort_values is a stable lexicographic sort, and after
deduplication the sort keys are unique, so any correct sort produces the
same list. -/

def HEADERS : List String :=
  ["Stock No", "Make", "Model", "Year", "Auction Date", "URL",
   "ACV Cost", "Repair Cost"]

/-- Column access by header name. -/
def fieldOf (r : VehicleRecord) (h : String) : String :=
  if h = "Stock No" then r.stockNo
  else if h = "Make" then r.make
  else if h = "Model" then r.model
  else if h = "Year" then r.year
  else if h = "Auction Date" then r.auctionDate
  else if h = "URL" then r.url
  else if h = "ACV Cost" then r.acvCost
  else if h = "Repair Cost" then r.repairCost
  else ""

/-- One CSV row in the enforced column order. -/
def toRow (r : VehicleRecord) : List String :=
  HEADERS.map (fieldOf r)

/-- drop_duplicates on the stock-number column keeping first occurrences. -/
def dedupByStock (seen : List String) : List VehicleRecord → List VehicleRecord
  | [] => []
  | r :: rs =>
    if seen.contains r.stockNo then dedupByStock seen rs
    else r :: dedupByStock (r.stockNo :: seen) rs

/-- Python string comparison: lexicographic by code point. -/
def strLtL : List Char → List Char → Bool
  | [], [] => false
  | [], _ :: _ => true
  | _ :: _, [] => false
  | a :: as, b :: bs =>
    if a.toNat < b.toNat then true
    else if b.toNat < a.toNat then false
    else strLtL as bs

/-- Strict less-than on strings, code-point lexicographic. -/
def strLtB (a b : String) : Bool :=
  strLtL a.data b.data

/-- Non-strict comparison on strings. -/
def strLeB (a b : String) : Bool :=
  strLtB a b || a == b

theorem charEq_of_toNat {a b : Char} (h : a.toNat = b.toNat) : a = b := by
  simpa [Char.ext_iff, UInt32.ext_iff, Char.toNat, UInt32.toNat] using h

theorem strLtL_tri (a : List Char) : ∀ b,
    strLtL a b = true ∨ strLtL b a = true ∨ a = b := by
  induction a with
  | nil =>
    intro b
    cases b with
    | nil => exact Or.inr (Or.inr rfl)
    | cons y ys => exact Or.inl (by simp [strLtL])
  | cons x xs ih =>
    intro b
    cases b with
    | nil => exact Or.inr (Or.inl (by simp [strLtL]))
    | cons y ys =>
      rcases Nat.lt_trichotomy x.toNat y.toNat with h | h | h
      · exact Or.inl (by simp [strLtL, h])
      · have hxy : x = y := charEq_of_toNat h
        subst hxy
        rcases ih ys with h2 | h2 | h2
        · exact Or.inl (by simp [strLtL, h2])
        · exact Or.inr (Or.inl (by simp [strLtL, h2]))
        · exact Or.inr (Or.inr (by rw [h2]))
      · exact Or.inr (Or.inl (by simp [strLtL, h]))

theorem strLtL_trans (a : List Char) : ∀ b c,
    strLtL a b = true → strLtL b c = true → strLtL a c = true := by
  induction a with
  | nil =>
    intro b c h1 h2
    cases b with
    | nil => simp [strLtL] at h1
    | cons y ys =>
      cases c with
      | nil => simp [strLtL] at h2
      | cons z zs => simp [strLtL]
  | cons x xs ih =>
    intro b c h1 h2
    cases b with
    | nil => simp [strLtL] at h1
    | cons y ys =>
      cases c with
      | nil => simp [strLtL] at h2
      | cons z zs =>
        simp only [strLtL] at h1 h2 ⊢
        by_cases hxy : x.toNat < y.toNat
        · by_cases hyz : y.toNat < z.toNat
          · simp [Nat.lt_trans hxy hyz]
          · by_cases hzy : z.toNat < y.toNat
            · simp [hyz, hzy] at h2
            · have : y.toNat = z.toNat := by omega
              simp [this ▸ hxy]
        · by_cases hyx : y.toNat < x.toNat
          · simp [hxy, hyx] at h1
          · have hxyEq : x.toNat = y.toNat := by omega
            simp [hxy, hyx] at h1
            by_cases hyz : y.toNat < z.toNat
            · simp [hxyEq ▸ hyz]
            · by_cases hzy : z.toNat < y.toNat
              · simp [hyz, hzy] at h2
              · simp [hyz, hzy] at h2
                have hxz : ¬ x.toNat < z.toNat := by omega
                have hzx : ¬ z.toNat < x.toNat := by omega
                simp [hxz, hzx]
                exact ih ys zs h1 h2

theorem strLt_irrefl (a : List Char) : strLtL a a = false := by
  induction a with
  | nil => rfl
  | cons x xs ih => simp [strLtL, ih]

/-- The sort key order used by sort_values: auction date then stock number,
each compared as plain strings (code-point lexicographic, as Python
compares strings). -/
def rowLe (a b : VehicleRecord) : Prop :=
  strLtB a.auctionDate b.auctionDate = true ∨
    (a.auctionDate = b.auctionDate ∧ strLeB a.stockNo b.stockNo = true)

instance rowLeDec : DecidableRel rowLe := fun a b =>
  inferInstanceAs (Decidable (strLtB a.auctionDate b.auctionDate = true ∨
    (a.auctionDate = b.auctionDate ∧ strLeB a.stockNo b.stockNo = true)))

theorem strLeB_total (a b : String) : strLeB a b = true ∨ strLeB b a = true := by
  rcases strLtL_tri a.data b.data with h | h | h
  · exact Or.inl (by simp [strLeB, strLtB, h])
  · exact Or.inr (by simp [strLeB, strLtB, h])
  · have : a = b := congrArg String.mk h
    exact Or.inl (by simp [strLeB, this])

instance rowLeTotal : IsTotal VehicleRecord rowLe where
  total a b := by
    unfold rowLe
    rcases strLtL_tri a.auctionDate.data b.auctionDate.data with h | h | h
    · exact Or.inl (Or.inl (by simp [strLtB, h]))
    · exact Or.inr (Or.inl (by simp [strLtB, h]))
    · have hd : a.auctionDate = b.auctionDate := congrArg String.mk h
      rcases strLeB_total a.stockNo b.stockNo with h2 | h2
      · exact Or.inl (Or.inr ⟨hd, h2⟩)
      · exact Or.inr (Or.inr ⟨hd.symm, h2⟩)

theorem strLeB_trans {a b c : String} (h1 : strLeB a b = true)
    (h2 : strLeB b c = true) : strLeB a c = true := by
  simp only [strLeB, Bool.or_eq_true, beq_iff_eq] at h1 h2 ⊢
  rcases h1 with h1 | h1
  · rcases h2 with h2 | h2
    · exact Or.inl (strLtL_trans _ _ _ h1 h2)
    · exact Or.inl (h2 ▸ h1)
  · rcases h2 with h2 | h2
    · exact Or.inl (h1 ▸ h2)
    · exact Or.inr (h1.trans h2)

instance rowLeTrans : IsTrans VehicleRecord rowLe where
  trans a b c hab hbc := by
    unfold rowLe at *
    rcases hab with h1 | ⟨h1, h1s⟩
    · rcases hbc with h2 | ⟨h2, _⟩
      · exact Or.inl (strLtL_trans _ _ _ h1 h2)
      · exact Or.inl (h2 ▸ h1)
    · rcases hbc with h2 | ⟨h2, h2s⟩
      · exact Or.inl (h1 ▸ h2)
      · exact Or.inr ⟨h1.trans h2, strLeB_trans h1s h2s⟩

/-- The whole post-processing transformation on the loaded table. -/
def postProcess (rows : List VehicleRecord) : List VehicleRecord :=
  List.insertionSort rowLe (dedupByStock [] rows)

/-- The final table in the enforced column order. -/
def postProcessTable (rows : List VehicleRecord) : List (List String) :=
  (postProcess rows).map toRow

/-- The post-processing stage with its enclosing try/except: the read of the
written CSV and the rewrite are the two failure points (modelled as atomic
external steps); any raised failure is swallowed and the previously written
raw content is kept. -/
def runPostStage (raw : List VehicleRecord) (readOk writeOk : Bool) :
    List VehicleRecord :=
  let attempt : Except String (List VehicleRecord) :=
    if readOk then
      let t := postProcess raw
      if writeOk then Except.ok t else Except.error "write failed"
    else Except.error "read failed"
  match attempt with
  | .ok t => t
  | .error _ => raw

/-! ## Every strategy result is a cleaned string -/

/-- An optional value is in the image of clean_text. -/
def cleanImage : Option String → Prop
  | none => True
  | some v => ∃ s, v = cleanText s

theorem cleanImage_oor {a b : Option String}
    (ha : cleanImage a) (hb : cleanImage b) : cleanImage (oor a b) := by
  cases a with
  | none => simpa [oor] using hb
  | some v => simpa [oor] using ha

theorem cleanImage_ite {c : Prop} [Decidable c] {a b : Option String}
    (ha : cleanImage a) (hb : cleanImage b) :
    cleanImage (if c then a else b) := by
  by_cases h : c <;> simp [h] <;> assumption

theorem cleanImage_map_clean {x : Option Node} {f : Node → String} :
    cleanImage (x.map (fun n => cleanText (f n))) := by
  cases x with
  | none => simp [cleanImage]
  | some n => exact ⟨f n, rfl⟩

theorem cleanImage_nonEmptyClean (n : Node) : cleanImage (nonEmptyClean n) := by
  unfold nonEmptyClean
  by_cases h : cleanText (getTextSp n) != ""
  · simpa [h] using ⟨getTextSp n, rfl⟩
  · simp [h, cleanImage]

theorem cleanImage_st2cand (cs sibs : List Node) (k : Option Node) :
    cleanImage (st2cand cs sibs k) := by
  unfold st2cand
  have hnxt : cleanImage
      (match firstTagO cs (firstTagO sibs k) with
       | some nx => nonEmptyClean nx
       | none => none) := by
    cases firstTagO cs (firstTagO sibs k) with
    | none => simp [cleanImage]
    | some nx => simpa using cleanImage_nonEmptyClean nx
  cases firstTag sibs with
  | none => simpa using hnxt
  | some sb =>
    simpa using cleanImage_oor (cleanImage_nonEmptyClean sb) hnxt

theorem st1_cleanImage :
    ∀ l labels, cleanImage (st1L labels l) := by
  have h := forestInd
    (fun n => ∀ labels, cleanImage (st1N labels n))
    (fun l => ∀ labels, cleanImage (st1L labels l))
    (fun s labels => by simp [st1N, cleanImage])
    (fun t cs ih labels => by simpa [st1N] using ih labels)
    (fun labels => by simp [st1L, cleanImage])
    (fun n l ihn ihl labels => by
      cases n with
      | text s => simpa [st1L] using ihl labels
      | elem t cs =>
        simp only [st1L]
        refine cleanImage_oor (cleanImage_ite ?_ (by simp [cleanImage])) ?_
        · exact cleanImage_map_clean
        · exact cleanImage_oor (ihn labels) (ihl labels))
  exact h

theorem st2_cleanImage :
    ∀ l labels cand k, cleanImage cand → cleanImage (st2L labels cand l k) := by
  have h := forestInd
    (fun n => ∀ labels sibs k, cleanImage (st2N labels n sibs k))
    (fun l => ∀ labels cand k, cleanImage cand → cleanImage (st2L labels cand l k))
    (fun s labels sibs k => by simp [st2N, cleanImage])
    (fun t cs ih labels sibs k => by
      simpa [st2N] using
        ih labels (st2cand cs sibs k) (firstTagO sibs k) (cleanImage_st2cand cs sibs k))
    (fun labels cand k _ => by simp [st2L, cleanImage])
    (fun n l ihn ihl labels cand k hcand => by
      cases n with
      | text s =>
        simp only [st2L]
        exact cleanImage_ite hcand (ihl labels cand k hcand)
      | elem t cs =>
        simp only [st2L]
        exact cleanImage_oor (ihn labels l k) (ihl labels cand k hcand))
  exact h

theorem st3TryLabels_cleanImage (labels : List String) (txt : String) :
    cleanImage (st3TryLabels txt labels) := by
  induction labels with
  | nil => simp [st3TryLabels, cleanImage]
  | cons lab more ih =>
    simp only [st3TryLabels]
    by_cases hs : swSearch lab.data none txt.data
    · simp only [hs, if_true]
      cases ciFind lab.data txt.data with
      | none => simpa using ih
      | some rest =>
        by_cases ha : cleanText ⟨upToNext lab.data (eatTail rest)⟩ != ""
        · simpa [ha] using ⟨(⟨upToNext lab.data (eatTail rest)⟩ : String), rfl⟩
        · simpa [ha] using ih
    · simpa [hs] using ih

theorem st3_cleanImage :
    ∀ l labels, cleanImage (st3L labels l) := by
  have h := forestInd
    (fun n => ∀ labels, cleanImage (st3N labels n))
    (fun l => ∀ labels, cleanImage (st3L labels l))
    (fun s labels => by simp [st3N, cleanImage])
    (fun t cs ih labels => by
      simp only [st3N]
      refine cleanImage_oor (cleanImage_ite ?_ (by simp [cleanImage])) (ih labels)
      exact st3TryLabels_cleanImage labels _)
    (fun labels => by simp [st3L, cleanImage])
    (fun n l ihn ihl labels => by
      simp only [st3L]
      exact cleanImage_oor (ihn labels) (ihl labels))
  exact h

/-- Every value produced by find_labeled_value is the empty string or the
clean_text of some string. -/
theorem find_labeled_value_image (doc : List Node) (labels : List String) :
    find_labeled_value doc labels = "" ∨
      ∃ s, find_labeled_value doc labels = cleanText s := by
  unfold find_labeled_value
  have h1 := st1_cleanImage doc labels
  have h2 := st2_cleanImage doc labels (st2cand doc [] none) none
    (cleanImage_st2cand doc [] none)
  have h3 := st3_cleanImage doc labels
  have : cleanImage (oor (strat1 labels doc)
      (oor (strat2 labels doc) (strat3 labels doc))) := by
    exact cleanImage_oor h1 (cleanImage_oor h2 h3)
  cases hres : oor (strat1 labels doc) (oor (strat2 labels doc) (strat3 labels doc)) with
  | none => exact Or.inl rfl
  | some v =>
    rw [hres] at this
    obtain ⟨s, hs⟩ := this
    exact Or.inr ⟨s, hs⟩

/-- find_labeled_value always returns a clean string. -/
theorem find_labeled_value_clean (doc : List Node) (labels : List String) :
    isCleanStr (find_labeled_value doc labels) = true := by
  rcases find_labeled_value_image doc labels with h | ⟨s, hs⟩
  · rw [h]; decide
  · rw [hs]; exact isCleanStr_cleanText s

/-- clean_text is the identity on extractor results. -/
theorem cleanText_find_labeled_value (doc : List Node) (labels : List String) :
    cleanText (find_labeled_value doc labels) = find_labeled_value doc labels := by
  rcases find_labeled_value_image doc labels with h | ⟨s, hs⟩
  · rw [h]; decide
  · rw [hs]; exact cleanText_idem s

/-! ## Declarative views of strategies 1 and 2 -/

mutual
/-- Elements below a node, each paired with its following siblings, in
document order. -/
def ewsN : Node → List (Node × List Node)
  | .text _ => []
  | .elem _ cs => ewsL cs
/-- Elements of a forest, each paired with its following siblings, in
document order. -/
def ewsL : List Node → List (Node × List Node)
  | [] => []
  | .text _ :: rest => ewsL rest
  | .elem t cs :: rest => (.elem t cs, rest) :: (ewsN (.elem t cs) ++ ewsL rest)
end

/-- Strategy 1 candidate of one element-with-siblings pair: the cleaned
text of the next dd sibling of a dt whose nonempty stripped text matches. -/
def dtCand (labels : List String) (p : Node × List Node) : Option String :=
  match p.1 with
  | .elem t cs =>
    if t = "dt" && getTextStrip (.elem t cs) != "" &&
        labelMatches labels (getTextStrip (.elem t cs)) then
      (firstDD p.2).map (fun dd => cleanText (getTextSp dd))
    else none
  | .text _ => none

/-- The cleaned dd texts of all matching dt elements that have a dd
sibling, in document order. -/
def dtVals (labels : List String) (doc : List Node) : List String :=
  (ewsL doc).filterMap (dtCand labels)

theorem oor_head_append (a b : List String) :
    (a ++ b).head? = oor a.head? b.head? := by
  cases a <;> simp [oor]

theorem oor_assoc (x y z : Option String) :
    oor (oor x y) z = oor x (oor y z) := by
  cases x <;> simp [oor]

/-- The recursive strategy-1 scan returns exactly the first declarative
candidate. -/
theorem st1_eq_dtVals :
    ∀ l labels, st1L labels l = ((ewsL l).filterMap (dtCand labels)).head? := by
  have h := forestInd
    (fun n => ∀ labels, st1N labels n = ((ewsN n).filterMap (dtCand labels)).head?)
    (fun l => ∀ labels, st1L labels l = ((ewsL l).filterMap (dtCand labels)).head?)
    (fun s labels => by simp [st1N, ewsN])
    (fun t cs ih labels => by simpa [st1N, ewsN] using ih labels)
    (fun labels => by simp [st1L, ewsL])
    (fun n l ihn ihl labels => by
      cases n with
      | text s => simpa [st1L, ewsL] using ihl labels
      | elem t cs =>
        simp only [st1L, ewsL, List.filterMap_cons, List.filterMap_append]
        cases hc : dtCand labels (Node.elem t cs, l) with
        | none =>
          unfold dtCand at hc
          simp only at hc
          rw [show (if t = "dt" && getTextStrip (.elem t cs) != "" &&
              labelMatches labels (getTextStrip (.elem t cs)) then
              (firstDD l).map (fun dd => cleanText (getTextSp dd))
            else none) = none from hc]
          rw [oor_head_append]
          simp only [oor]
          rw [ihn labels, ihl labels]
        | some v =>
          unfold dtCand at hc
          simp only at hc
          rw [show (if t = "dt" && getTextStrip (.elem t cs) != "" &&
              labelMatches labels (getTextStrip (.elem t cs)) then
              (firstDD l).map (fun dd => cleanText (getTextSp dd))
            else none) = some v from hc]
          simp [oor])
  exact h

mutual
/-- The candidate values of all matching text nodes below one element, in
document order. -/
def st2cN (labels : List String) : Node → List Node → Option Node → List (Option String)
  | .text _, _, _ => []
  | .elem _ cs, sibs, k => st2cL labels (st2cand cs sibs k) cs (firstTagO sibs k)
/-- The candidate values of all matching text nodes of a sibling list whose
parent has candidate cand, in document order. -/
def st2cL (labels : List String) (cand : Option String) :
    List Node → Option Node → List (Option String)
  | [], _ => []
  | .text s :: rest, k =>
    (if labelMatches labels s then [cand] else []) ++ st2cL labels cand rest k
  | .elem t cs :: rest, k =>
    st2cN labels (.elem t cs) rest k ++ st2cL labels cand rest k
end

/-- One candidate entry per text node matching the label pattern, in
document order: each entry is the value strategy 2 would read near that
text node's parent (none when both the sibling and the next element give
empty text). -/
def st2Candidates (labels : List String) (doc : List Node) : List (Option String) :=
  st2cL labels (st2cand doc [] none) doc none

/-- First non-none entry of a candidate list. -/
def firstSome : List (Option String) → Option String
  | [] => none
  | o :: rest => oor o (firstSome rest)

theorem firstSome_append (a b : List (Option String)) :
    firstSome (a ++ b) = oor (firstSome a) (firstSome b) := by
  induction a with
  | nil => simp [firstSome, oor]
  | cons o rest ih => simp [firstSome, ih, oor_assoc]

/-- The recursive strategy-2 scan returns the first non-none candidate of
the per-text-node candidate list: it keeps consulting later matching text
nodes until one of them yields a value. -/
theorem st2_eq_candidates :
    ∀ l labels cand k, st2L labels cand l k = firstSome (st2cL labels cand l k) := by
  have h := forestInd
    (fun n => ∀ labels sibs k, st2N labels n sibs k = firstSome (st2cN labels n sibs k))
    (fun l => ∀ labels cand k, st2L labels cand l k = firstSome (st2cL labels cand l k))
    (fun s labels sibs k => by simp [st2N, st2cN, firstSome])
    (fun t cs ih labels sibs k => by simpa [st2N, st2cN] using ih labels _ _)
    (fun labels cand k => by simp [st2L, st2cL, firstSome])
    (fun n l ihn ihl labels cand k => by
      cases n with
      | text s =>
        simp only [st2L, st2cL, firstSome_append]
        by_cases hm : labelMatches labels s
        · cases hcand : cand with
          | none =>
            simp only [hm, hcand, if_true, Bool.true_and, Option.isSome_none,
              Bool.false_eq_true, if_false, firstSome, oor]
            exact ihl labels none k
          | some v => simp [hm, hcand, firstSome, oor]
        · simp only [hm, Bool.false_and, Bool.false_eq_true, if_false,
            firstSome, oor]
          exact ihl labels cand k
      | elem t cs =>
        simp only [st2L, st2cL, firstSome_append]
        rw [ihn labels l k, ihl labels cand k])
  exact h

/-! ## Post-processing lemmas -/

theorem find?_cons_true {α} {p : α → Bool} {x : α} {xs : List α}
    (h : p x = true) : List.find? p (x :: xs) = some x := by
  simp [List.find?, h]

theorem find?_cons_false {α} {p : α → Bool} {x : α} {xs : List α}
    (h : p x = false) : List.find? p (x :: xs) = List.find? p xs := by
  simp [List.find?, h]

theorem dedup_mem {seen : List String} {rows : List VehicleRecord}
    {r : VehicleRecord} (h : r ∈ dedupByStock seen rows) :
    r.stockNo ∉ seen ∧
      rows.find? (fun x => x.stockNo == r.stockNo) = some r := by
  induction rows generalizing seen with
  | nil => simp [dedupByStock] at h
  | cons x xs ih =>
    by_cases hx : x.stockNo ∈ seen
    · rw [dedupByStock, if_pos (by simpa using hx)] at h
      obtain ⟨hns, hfind⟩ := ih h
      have hne : (x.stockNo == r.stockNo) = false := by
        have : x.stockNo ≠ r.stockNo := fun hcon => hns (hcon ▸ hx)
        simpa using this
      constructor
      · exact hns
      · rw [@find?_cons_false _ (fun y => y.stockNo == r.stockNo) x xs hne]
        exact hfind
    · rw [dedupByStock, if_neg (by simpa using hx)] at h
      rcases List.mem_cons.mp h with rfl | hmem
      · refine ⟨hx, ?_⟩
        exact @find?_cons_true _ (fun y => y.stockNo == r.stockNo) r xs (by simp)
      · obtain ⟨hns, hfind⟩ := ih hmem
        simp only [List.mem_cons, not_or] at hns
        have hne : (x.stockNo == r.stockNo) = false := by
          have : x.stockNo ≠ r.stockNo := fun hcon => hns.1 hcon.symm
          simpa using this
        refine ⟨hns.2, ?_⟩
        rw [@find?_cons_false _ (fun y => y.stockNo == r.stockNo) x xs hne]
        exact hfind

theorem dedup_covers {seen : List String} {rows : List VehicleRecord}
    {r : VehicleRecord} (h : r ∈ rows) (hn : r.stockNo ∉ seen) :
    ∃ q ∈ dedupByStock seen rows, q.stockNo = r.stockNo := by
  induction rows generalizing seen with
  | nil => simp at h
  | cons x xs ih =>
    by_cases hx : x.stockNo ∈ seen
    · rw [dedupByStock, if_pos (by simpa using hx)]
      rcases List.mem_cons.mp h with rfl | hmem
      · exact absurd hx hn
      · exact ih hmem hn
    · rw [dedupByStock, if_neg (by simpa using hx)]
      rcases List.mem_cons.mp h with rfl | hmem
      · exact ⟨r, List.mem_cons_self r _, rfl⟩
      · by_cases hsame : r.stockNo = x.stockNo
        · exact ⟨x, List.mem_cons_self x _, hsame.symm⟩
        · have hn2 : r.stockNo ∉ x.stockNo :: seen := by
            simp only [List.mem_cons, not_or]
            exact ⟨hsame, hn⟩
          obtain ⟨q, hq, hqs⟩ := ih hmem hn2
          exact ⟨q, List.mem_cons_of_mem x hq, hqs⟩

theorem dedup_pairwise (seen : List String) (rows : List VehicleRecord) :
    (dedupByStock seen rows).Pairwise (fun a b => a.stockNo ≠ b.stockNo) := by
  induction rows generalizing seen with
  | nil => simp [dedupByStock]
  | cons x xs ih =>
    by_cases hx : x.stockNo ∈ seen
    · rw [dedupByStock, if_pos (by simpa using hx)]; exact ih seen
    · rw [dedupByStock, if_neg (by simpa using hx)]
      refine List.Pairwise.cons ?_ (ih (x.stockNo :: seen))
      intro b hb hcon
      have := (dedup_mem hb).1
      exact this (by rw [← hcon]; exact List.mem_cons_self _ _)

theorem perm_postProcess (rows : List VehicleRecord) :
    (postProcess rows).Perm (dedupByStock [] rows) :=
  List.perm_insertionSort rowLe (dedupByStock [] rows)

theorem sorted_postProcess (rows : List VehicleRecord) :
    List.Sorted rowLe (postProcess rows) :=
  List.sorted_insertionSort rowLe (dedupByStock [] rows)

theorem pairwise_postProcess (rows : List VehicleRecord) :
    (postProcess rows).Pairwise (fun a b => a.stockNo ≠ b.stockNo) := by
  refine ((perm_postProcess rows).pairwise_iff ?_).mpr (dedup_pairwise [] rows)
  intro a b h
  exact h ∘ Eq.symm

theorem mem_postProcess {rows : List VehicleRecord} {r : VehicleRecord} :
    r ∈ postProcess rows ↔ r ∈ dedupByStock [] rows :=
  (perm_postProcess rows).mem_iff

theorem countP_le_one_of_pairwise (l : List VehicleRecord) (s : String)
    (h : l.Pairwise (fun a b => a.stockNo ≠ b.stockNo)) :
    l.countP (fun r => r.stockNo == s) ≤ 1 := by
  induction l with
  | nil => simp
  | cons a t ih =>
    rw [List.countP_cons]
    rcases List.pairwise_cons.mp h with ⟨ha, ht⟩
    by_cases hp : (a.stockNo == s) = true
    · have hzero : t.countP (fun r => r.stockNo == s) = 0 := by
        rw [List.countP_eq_zero]
        intro x hx
        simp only [beq_iff_eq] at hp ⊢
        intro hxs
        exact ha x hx (by rw [hxs, hp])
      simp [hp, hzero]
    · simp only [hp, if_false]
      simpa using ih ht

/-! ## Lemmas about the URL stock digits -/

theorem mem_takeWhile {p : Char → Bool} {l : List Char} {x : Char}
    (h : x ∈ l.takeWhile p) : p x = true := by
  induction l with
  | nil => simp [List.takeWhile] at h
  | cons c cs ih =>
    by_cases hc : p c = true
    · rw [List.takeWhile_cons, if_pos hc] at h
      rcases List.mem_cons.mp h with rfl | hmem
      · exact hc
      · exact ih hmem
    · rw [List.takeWhile_cons, if_neg (by simp [hc])] at h
      simp at h

theorem firstDigitRun_digits {l ds : List Char}
    (h : firstDigitRun l = some ds) : ∀ c ∈ ds, c.isDigit = true := by
  induction l with
  | nil => simp [firstDigitRun] at h
  | cons c cs ih =>
    rw [firstDigitRun] at h
    by_cases hlen : ((c :: cs).takeWhile Char.isDigit).length ≥ 5
    · rw [if_pos hlen] at h
      intro x hx
      rw [← Option.some_inj.mp h] at hx
      exact mem_takeWhile hx
    · rw [if_neg hlen] at h
      exact ih h

theorem digit_not_space {c : Char} (h : c.isDigit = true) : isPySpace c = false := by
  cases hb : isPySpace c with
  | false => rfl
  | true =>
    have hcase : c = ' ' ∨ c = '\t' ∨ c = '\n' ∨ c = '\r' ∨ c = '\x0b' ∨ c = '\x0c' := by
      simpa [isPySpace, or_assoc] using hb
    rcases hcase with rfl | rfl | rfl | rfl | rfl | rfl <;> exact absurd h (by decide)

/-! ## Frame lemmas for the year-make-model computation -/

theorem ymmOf_year (doc : List Node) (h : find_labeled_value doc ["Year"] ≠ "") :
    (ymmOf doc).1 = find_labeled_value doc ["Year"] := by
  unfold ymmOf
  split
  · cases hts : titleSearch (titleTextOf doc) with
    | none => rfl
    | some t =>
      obtain ⟨y, mk, md⟩ := t
      simp [h]
  · rfl

theorem ymmOf_make (doc : List Node) (h : find_labeled_value doc ["Make"] ≠ "") :
    (ymmOf doc).2.1 = find_labeled_value doc ["Make"] := by
  unfold ymmOf
  split
  · cases hts : titleSearch (titleTextOf doc) with
    | none => rfl
    | some t =>
      obtain ⟨y, mk, md⟩ := t
      simp [h]
  · rfl

theorem ymmOf_model (doc : List Node) (h : find_labeled_value doc ["Model"] ≠ "") :
    (ymmOf doc).2.2 = find_labeled_value doc ["Model"] := by
  unfold ymmOf
  split
  · cases hts : titleSearch (titleTextOf doc) with
    | none => rfl
    | some t =>
      obtain ⟨y, mk, md⟩ := t
      simp [h]
  · rfl

theorem ymmOf_no_fallback (doc : List Node)
    (h : ¬(¬(find_labeled_value doc ["Year"] ≠ "" ∧ find_labeled_value doc ["Make"] ≠ "" ∧
        find_labeled_value doc ["Model"] ≠ "") ∧ titleTextOf doc ≠ "")) :
    ymmOf doc = (find_labeled_value doc ["Year"], find_labeled_value doc ["Make"],
      find_labeled_value doc ["Model"]) := by
  unfold ymmOf
  rw [if_neg h]

/-! ## Concrete documents used by counterexamples and witnesses -/

/-- ACV definition pair whose value is a plain digit run longer than the
money pattern's leading group. -/
def moneyDoc : List Node :=
  [.elem "dl" [.elem "dt" [.text "ACV"], .elem "dd" [.text "12345"]]]

/-- Two label text nodes: the first yields no value (its parent's sibling
and next element have empty text), the second yields VALUE2. -/
def twoLabelDoc : List Node :=
  [.elem "section" [.elem "x" [.text "Label"], .elem "pad" []],
   .elem "section" [.elem "y" [.text "Label"], .elem "z" [.text "VALUE2"]]]

/-- Two matching dt/dd pairs with different values. -/
def twoDtDoc : List Node :=
  [.elem "dl" [.elem "dt" [.text "Make"], .elem "dd" [.text "A"]],
   .elem "dl" [.elem "dt" [.text "Make"], .elem "dd" [.text "B"]]]

/-- A title and a page-labelled make differing only in case from the
title-derived make. -/
def hondaDoc : List Node :=
  [.elem "title" [.text "2021 Honda Civic — IAAI"],
   .elem "dl" [.elem "dt" [.text "Make"], .elem "dd" [.text "HONDA"]]]

/-- A stock-number definition pair. -/
def stockDoc : List Node :=
  [.elem "dl" [.elem "dt" [.text "Stock No"], .elem "dd" [.text "2753199"]]]

/-- A single matching dt/dd pair. -/
def oneDtDoc : List Node :=
  [.elem "dl" [.elem "dt" [.text "Make"], .elem "dd" [.text "W"]]]

/-- An inline label inside a div, for strategy 3. -/
def inlineDoc : List Node :=
  [.elem "div" [.text "Make: Kia"]]

/-! ## Claim theorems -/

/-- C1 counterexample: the claim states that for extracted text "12345" the
stored value is exactly "12345", but the money pattern's leading digit
group matches at most three digits, so the first match is "123" and the
stored ACV Cost is "123". -/
theorem c1_counterexample :
    find_labeled_value moneyDoc acvLabels = "12345" ∧
    (parse_vehicle moneyDoc "u").acvCost = "123" ∧
    ("123" : String) ≠ "12345" := by
  refine ⟨by decide, by decide, by decide⟩

/-- C1 amended: the stored ACV Cost and Repair Cost are the clean_text of
the first (leftmost, greedy) money-pattern match of the extracted text when
one exists, and of the raw extracted text otherwise.  The leading digit
group of the pattern is capped at three digits, so extracted text
"Approx. $12,345.67 USD" stores "$12,345.67" while plain "12345" stores
"123" (a match exists but covers only the first three digits). -/
theorem c1_money_normalization (doc : List Node) (url : String) :
    (parse_vehicle doc url).acvCost =
      cleanText (normalizeMoney (find_labeled_value doc acvLabels)) ∧
    (parse_vehicle doc url).repairCost =
      cleanText (normalizeMoney (find_labeled_value doc repairLabels)) ∧
    (∀ s, normalizeMoney s = (moneySearch s).getD s) ∧
    normalizeMoney "Approx. $12,345.67 USD" = "$12,345.67" ∧
    normalizeMoney "12345" = "123" := by
  refine ⟨rfl, rfl, ?_, by decide, by decide⟩
  intro s
  unfold normalizeMoney
  cases moneySearch s <;> rfl

/-- C2 counterexample: the URL field is stored verbatim, without the
whitespace normalization applied to the other seven fields; a source URL
with an internal double space is stored unchanged and is not
whitespace-normalized. -/
theorem c2_counterexample :
    (parse_vehicle [] "u  v").url = "u  v" ∧
    isCleanStr (parse_vehicle [] "u  v").url = false :=
  ⟨rfl, by decide⟩

/-- C2 amended: the seven extracted fields of every record pass through
whitespace-collapse and trim (no internal whitespace run longer than one,
no leading or trailing whitespace), while the URL field is stored exactly
as given. -/
theorem c2_fields_whitespace (doc : List Node) (url : String) :
    isCleanStr (parse_vehicle doc url).stockNo = true ∧
    isCleanStr (parse_vehicle doc url).make = true ∧
    isCleanStr (parse_vehicle doc url).model = true ∧
    isCleanStr (parse_vehicle doc url).year = true ∧
    isCleanStr (parse_vehicle doc url).auctionDate = true ∧
    isCleanStr (parse_vehicle doc url).acvCost = true ∧
    isCleanStr (parse_vehicle doc url).repairCost = true ∧
    (parse_vehicle doc url).url = url :=
  ⟨isCleanStr_cleanText _, isCleanStr_cleanText _, isCleanStr_cleanText _,
   isCleanStr_cleanText _, isCleanStr_cleanText _, isCleanStr_cleanText _,
   isCleanStr_cleanText _, rfl⟩

/-- C3 counterexample: in twoLabelDoc the first matching text node yields
no value, strategy 3 yields nothing, yet find_labeled_value returns VALUE2
from the second matching text node — so strategy 2 does consult later
matching text nodes, contradicting the claim that extraction would fall
through to strategy 3 and return the empty string. -/
theorem c3_counterexample :
    st2Candidates ["Label"] twoLabelDoc = [none, some "VALUE2"] ∧
    strat3 ["Label"] twoLabelDoc = none ∧
    find_labeled_value twoLabelDoc ["Label"] = "VALUE2" ∧
    ("VALUE2" : String) ≠ "" := by
  refine ⟨by decide, by decide, by decide, by decide⟩

/-- C3 amended: strategy 2 scans all text nodes matching the label pattern
in document order; for each it tries the parent's next sibling element's
cleaned text, else the first element after the parent in document order,
and returns the first non-empty value over all matching text nodes (not
just the first).  Only when no matching text node yields a value does
extraction fall through to strategy 3. -/
theorem c3_strategy2_all_matches (doc : List Node) (labels : List String) :
    strat2 labels doc = firstSome (st2Candidates labels doc) ∧
    (strat1 labels doc = none → strat2 labels doc = none →
      find_labeled_value doc labels =
        (match strat3 labels doc with
         | some v => v
         | none => "")) := by
  refine ⟨st2_eq_candidates doc labels _ none, ?_⟩
  intro h1 h2
  unfold find_labeled_value
  rw [h1, h2]
  rfl

/-- C3 amended witness at a concrete input: strategies 1 and 2 fail and
strategy 3 supplies the value. -/
theorem c3_witness :
    find_labeled_value inlineDoc ["Make"] =
      (match strat3 ["Make"] inlineDoc with
       | some v => v
       | none => "") :=
  (c3_strategy2_all_matches inlineDoc ["Make"]).2 (by decide) (by decide)

/-- C4: find_labeled_value is a total function returning a clean string —
no internal whitespace run longer than one character, no leading or
trailing whitespace — and the empty string when all three strategies
fail. -/
theorem c4_find_value_clean (doc : List Node) (labels : List String) :
    isCleanStr (find_labeled_value doc labels) = true ∧
    (oor (strat1 labels doc) (oor (strat2 labels doc) (strat3 labels doc)) = none →
      find_labeled_value doc labels = "") := by
  refine ⟨find_labeled_value_clean doc labels, ?_⟩
  intro h
  unfold find_labeled_value
  rw [h]

/-- C4 witness at a concrete input. -/
theorem c4_witness :
    isCleanStr (find_labeled_value [] ["Year"]) = true ∧
    find_labeled_value [] ["Year"] = "" :=
  ⟨(c4_find_value_clean [] ["Year"]).1,
   (c4_find_value_clean [] ["Year"]).2 (by decide)⟩

/-- C5 counterexample: both dt elements of twoDtDoc match the label and
have paired dd elements, with cleaned values "A" and "B"; find_labeled_value
returns "A", so it does not return the paired definition of the second
matching term, refuting the claim read at that term. -/
theorem c5_counterexample :
    dtVals ["Make"] twoDtDoc = ["A", "B"] ∧
    find_labeled_value twoDtDoc ["Make"] = "A" ∧
    find_labeled_value twoDtDoc ["Make"] ≠ "B" := by
  refine ⟨by decide, by decide, by decide⟩

/-- C5 amended: among the dt elements whose nonempty stripped text matches
a label and that have a following dd sibling (in document order), the
first one determines the result: find_labeled_value returns its paired
definition's cleaned text, regardless of strategy-2 or strategy-3
candidates; matching dt elements without a dd sibling are skipped. -/
theorem c5_first_dt_wins (doc : List Node) (labels : List String)
    (v : String) (vs : List String) (h : dtVals labels doc = v :: vs) :
    find_labeled_value doc labels = v := by
  have h1 : strat1 labels doc = some v := by
    unfold strat1
    rw [st1_eq_dtVals doc labels]
    unfold dtVals at h
    rw [h]
    rfl
  unfold find_labeled_value
  rw [h1]
  rfl

/-- C5 amended witness at a concrete input. -/
theorem c5_witness : find_labeled_value oneDtDoc ["Make"] = "W" :=
  c5_first_dt_wins oneDtDoc ["Make"] "W" [] (by decide)

/-- C6: the stock number defaults to the first run of five or more digits
of the URL (empty when there is none) and is overridden by the extractor's
value exactly when that value is nonempty; the two behaviours of the
specification's example hold. -/
theorem c6_stock_precedence (doc : List Node) (url : String) :
    ((parse_vehicle doc url).stockNo =
      if find_labeled_value doc stockLabels ≠ "" then
        find_labeled_value doc stockLabels
      else
        match firstDigitRun url.data with
        | some ds => (⟨ds⟩ : String)
        | none => "") ∧
    (parse_vehicle [] "https://ca.iaai.com/vehicle-details/2753101").stockNo
      = "2753101" ∧
    (parse_vehicle stockDoc "https://ca.iaai.com/vehicle-details/2753101").stockNo
      = "2753199" := by
  refine ⟨?_, by decide, by decide⟩
  show cleanText (if find_labeled_value doc stockLabels ≠ "" then
      find_labeled_value doc stockLabels
    else
      match firstDigitRun url.data with
      | some ds => (⟨ds⟩ : String)
      | none => "") = _
  by_cases h : find_labeled_value doc stockLabels ≠ ""
  · rw [if_pos h]
    exact cleanText_find_labeled_value doc stockLabels
  · rw [if_neg h]
    cases hd : firstDigitRun url.data with
    | none => decide
    | some ds =>
      apply cleanText_of_no_ws
      intro c hc
      exact digit_not_space (firstDigitRun_digits hd c hc)

/-- C7: the title fallback never overwrites a nonempty extractor value for
Year, Make or Model; when the title is empty or all three extractor values
are nonempty, the record carries exactly the extractor values. -/
theorem c7_title_fallback_frame (doc : List Node) (url : String) :
    (find_labeled_value doc ["Year"] ≠ "" →
      (parse_vehicle doc url).year = find_labeled_value doc ["Year"]) ∧
    (find_labeled_value doc ["Make"] ≠ "" →
      (parse_vehicle doc url).make = find_labeled_value doc ["Make"]) ∧
    (find_labeled_value doc ["Model"] ≠ "" →
      (parse_vehicle doc url).model = find_labeled_value doc ["Model"]) ∧
    (titleTextOf doc = "" →
      (parse_vehicle doc url).year = find_labeled_value doc ["Year"] ∧
      (parse_vehicle doc url).make = find_labeled_value doc ["Make"] ∧
      (parse_vehicle doc url).model = find_labeled_value doc ["Model"]) ∧
    ((find_labeled_value doc ["Year"] ≠ "" ∧ find_labeled_value doc ["Make"] ≠ "" ∧
        find_labeled_value doc ["Model"] ≠ "") →
      (parse_vehicle doc url).year = find_labeled_value doc ["Year"] ∧
      (parse_vehicle doc url).make = find_labeled_value doc ["Make"] ∧
      (parse_vehicle doc url).model = find_labeled_value doc ["Model"]) := by
  refine ⟨?_, ?_, ?_, ?_, ?_⟩
  · intro h
    show cleanText (ymmOf doc).1 = _
    rw [ymmOf_year doc h]
    exact cleanText_find_labeled_value doc ["Year"]
  · intro h
    show cleanText (ymmOf doc).2.1 = _
    rw [ymmOf_make doc h]
    exact cleanText_find_labeled_value doc ["Make"]
  · intro h
    show cleanText (ymmOf doc).2.2 = _
    rw [ymmOf_model doc h]
    exact cleanText_find_labeled_value doc ["Model"]
  · intro h
    have hno := ymmOf_no_fallback doc (by
      intro hcon
      exact hcon.2 h)
    refine ⟨?_, ?_, ?_⟩
    · show cleanText (ymmOf doc).1 = _
      rw [hno]
      exact cleanText_find_labeled_value doc ["Year"]
    · show cleanText (ymmOf doc).2.1 = _
      rw [hno]
      exact cleanText_find_labeled_value doc ["Make"]
    · show cleanText (ymmOf doc).2.2 = _
      rw [hno]
      exact cleanText_find_labeled_value doc ["Model"]
  · intro h
    have hno := ymmOf_no_fallback doc (by
      intro hcon
      exact hcon.1 h)
    refine ⟨?_, ?_, ?_⟩
    · show cleanText (ymmOf doc).1 = _
      rw [hno]
      exact cleanText_find_labeled_value doc ["Year"]
    · show cleanText (ymmOf doc).2.1 = _
      rw [hno]
      exact cleanText_find_labeled_value doc ["Make"]
    · show cleanText (ymmOf doc).2.2 = _
      rw [hno]
      exact cleanText_find_labeled_value doc ["Model"]

/-- C7 witness: the Honda page resolves Make to "HONDA" from the page and
that value survives the title fallback, which fills only Year and Model. -/
theorem c7_witness :
    find_labeled_value hondaDoc ["Make"] ≠ "" ∧
    (parse_vehicle hondaDoc "u").make = find_labeled_value hondaDoc ["Make"] ∧
    (parse_vehicle hondaDoc "u").make = "HONDA" ∧
    (parse_vehicle hondaDoc "u").year = "2021" ∧
    (parse_vehicle hondaDoc "u").model = "Civic" :=
  ⟨by decide, (c7_title_fallback_frame hondaDoc "u").2.1 (by decide),
   by decide, by decide, by decide⟩

/-- C8: the post-processed table is sorted ascending by auction date then
stock number under plain code-point string comparison, keeps exactly the
first occurrence among rows sharing a stock number, represents every input
stock number, enforces the fixed eight-column order, and orders the dates
"2024-10-1" before "2024-9-1" (string order, not calendar order). -/
theorem c8_postprocess_result (rows : List VehicleRecord) :
    List.Sorted rowLe (postProcess rows) ∧
    (postProcess rows).Pairwise (fun a b => a.stockNo ≠ b.stockNo) ∧
    (∀ r ∈ postProcess rows,
      rows.find? (fun x => x.stockNo == r.stockNo) = some r) ∧
    (∀ r ∈ rows, ∃ q ∈ postProcess rows, q.stockNo = r.stockNo) ∧
    (∀ r, toRow r = HEADERS.map (fieldOf r)) ∧
    postProcess [⟨"1", "", "", "", "2024-9-1", "", "", ""⟩,
        ⟨"2", "", "", "", "2024-10-1", "", "", ""⟩] =
      [⟨"2", "", "", "", "2024-10-1", "", "", ""⟩,
       ⟨"1", "", "", "", "2024-9-1", "", "", ""⟩] := by
  refine ⟨sorted_postProcess rows, pairwise_postProcess rows, ?_, ?_,
    fun r => rfl, by decide⟩
  · intro r hr
    exact (dedup_mem (mem_postProcess.mp hr)).2
  · intro r hr
    obtain ⟨q, hq, hqs⟩ := dedup_covers hr (List.not_mem_nil _)
    exact ⟨q, mem_postProcess.mpr hq, hqs⟩

/-- C8 witness at a concrete input. -/
theorem c8_witness :
    [(⟨"7", "", "", "", "d", "", "", ""⟩ : VehicleRecord),
        ⟨"7", "x", "", "", "d", "", "", ""⟩].find?
      (fun x => x.stockNo == (⟨"7", "", "", "", "d", "", "", ""⟩ : VehicleRecord).stockNo)
      = some ⟨"7", "", "", "", "d", "", "", ""⟩ :=
  (c8_postprocess_result
      [⟨"7", "", "", "", "d", "", "", ""⟩, ⟨"7", "x", "", "", "d", "", "", ""⟩]).2.2.1
    ⟨"7", "", "", "", "d", "", "", ""⟩ (by decide)

/-- C9: the post-processing stage is guarded by one try/except; if either
external step (reading the written CSV back, or rewriting it) fails, the
raw previously written content is kept unchanged, and the stage always
returns normally. -/
theorem c9_post_stage_atomic (raw : List VehicleRecord) (readOk writeOk : Bool) :
    runPostStage raw readOk writeOk =
      (if readOk && writeOk then postProcess raw else raw) := by
  cases readOk <;> cases writeOk <;> rfl

/-- C10: deduplication keys on the plain stock-number string with no
special case for the empty string: the post-processed table contains
min(n, 1) rows with empty stock number when the input has n such rows, and
any such surviving row is the first empty-stock row of the input. -/
theorem c10_empty_stock_dedup (rows : List VehicleRecord) :
    ((postProcess rows).countP (fun r => r.stockNo == "") =
      min (rows.countP (fun r => r.stockNo == "")) 1) ∧
    (∀ r ∈ postProcess rows, r.stockNo = "" →
      rows.find? (fun x => x.stockNo == "") = some r) := by
  constructor
  · cases hcnt : rows.countP (fun r => r.stockNo == "") with
    | zero =>
      simp only [Nat.zero_min]
      rw [List.countP_eq_zero]
      intro q hq
      have hfind := (dedup_mem (mem_postProcess.mp hq)).2
      have hqmem : q ∈ rows := List.mem_of_find?_eq_some hfind
      intro hp
      have : 0 < rows.countP (fun r => r.stockNo == "") :=
        List.countP_pos_iff.mpr ⟨q, hqmem, hp⟩
      omega
    | succ n =>
      have hpos : 0 < rows.countP (fun r => r.stockNo == "") := by omega
      obtain ⟨r, hr, hp⟩ := List.countP_pos_iff.mp hpos
      have hp2 : r.stockNo = "" := by simpa using hp
      obtain ⟨q, hq, hqs⟩ := dedup_covers hr (List.not_mem_nil _)
      have hq2 : q ∈ postProcess rows := mem_postProcess.mpr hq
      have hqp : (fun r => r.stockNo == "") q = true := by
        simp [hqs, hp2]
      have hge : 0 < (postProcess rows).countP (fun r => r.stockNo == "") :=
        List.countP_pos_iff.mpr ⟨q, hq2, hqp⟩
      have hle : (postProcess rows).countP (fun r => r.stockNo == "") ≤ 1 :=
        countP_le_one_of_pairwise _ "" (pairwise_postProcess rows)
      omega
  · intro r hr hr0
    have hfind := (dedup_mem (mem_postProcess.mp hr)).2
    rw [hr0] at hfind
    exact hfind

/-- C10 witness at a concrete input: of two records with empty stock
number, only the first is kept and found. -/
theorem c10_witness :
    [(⟨"", "a", "", "", "", "", "", ""⟩ : VehicleRecord),
        ⟨"", "b", "", "", "", "", "", ""⟩].find? (fun x => x.stockNo == "")
      = some ⟨"", "a", "", "", "", "", "", ""⟩ :=
  (c10_empty_stock_dedup
      [⟨"", "a", "", "", "", "", "", ""⟩, ⟨"", "b", "", "", "", "", "", ""⟩]).2
    ⟨"", "a", "", "", "", "", "", ""⟩ (by decide) (by decide)

end Scraper
